import Mathlib

/-!
Verification of the amplitude-estimation post-processing pipeline in
`qiskit/aqua/algorithms/single_sample/amplitude_estimation/ae.py`.

The embedding models the statistical core of the `AmplitudeEstimation` class:
the aggregation of measured probabilities onto the evaluation grid
(`_evaluate_statevector_results` and the count branch of `_run`), the
construction of the stored result record (`_run`, lines 217-243), the maximum
likelihood search (`mle`) and the three confidence-interval methods (`ci`).

Measured probabilities are real numbers; machine floats are modelled by `ℝ`.
The class stores its results in the dict `self._ret`, modelled by the
structure `Ret` below.  Functions imported from `qiskit.aqua.utils`
(`loglik`, `bisect_max`, `chi2_quantile`, `normal_quantile`,
`fisher_information`, `d_logprob`) are part of the repository but not under
`src/`; they are modelled from the spec where the spec determines them
(the two quantile functions, the shape of `loglik`), and are explicit
function parameters where it does not (the single-outcome probability model
`pdf_a` inside `loglik`, `fisher_information`, `d_logprob`, `bisect_max`).
-/

open scoped Classical

set_option maxRecDepth 8000

noncomputable section

/-! ### Association lists with Python dict semantics

`OrderedDict` / `dict` updates keep the position of an existing key and
append a fresh key at the end.  `upsert` models
`d[k] = d.get(k, 0) + p` (accumulation), `setKey` models `d[k] = p`
(plain assignment, used for `y_probabilities` in the count branch). -/

def upsert {K : Type} [DecidableEq K] (k : K) (p : ℝ) : List (K × ℝ) → List (K × ℝ)
  | [] => [(k, p)]
  | (k', v) :: rest => if k' = k then (k', v + p) :: rest else (k', v) :: upsert k p rest

def setKey {K : Type} [DecidableEq K] (k : K) (p : ℝ) : List (K × ℝ) → List (K × ℝ)
  | [] => [(k, p)]
  | (k', v) :: rest => if k' = k then (k', p) :: rest else (k', v) :: setKey k p rest

/-- Sum of the stored probability masses of a distribution. -/
def sumValues {K : Type} (d : List (K × ℝ)) : ℝ :=
  (d.map (fun e => e.2)).sum

/-- Total mass stored under key `k` (keys are unique in all lists built by
`upsert`/`setKey`, so this is the looked-up value). -/
def getVal {K : Type} [DecidableEq K] (d : List (K × ℝ)) (k : K) : ℝ :=
  ((d.filter (fun e => decide (e.1 = k))).map (fun e => e.2)).sum

/-- Group-by-key accumulation: fold a list into a keyed distribution,
accumulating `val x` under `key x`; models the dict-building loops of the
source. -/
def accumBy {α K : Type} [DecidableEq K] (key : α → K) (val : α → ℝ) (l : List α) :
    List (K × ℝ) :=
  l.foldl (fun acc x => upsert (key x) (val x) acc) []

/-- Python's `enumerate`. -/
def enumFrom {α : Type} : ℕ → List α → List (ℕ × α)
  | _, [] => []
  | n, a :: as => (n, a) :: enumFrom (n + 1) as

/-! ### Grid index extraction and folding -/

/-- The grid index extracted from a raw joint-register state index `i`
(line 163-164):
`b = "{0:b}".format(i).rjust(self._num_qubits, '0')[::-1]; y = int(b[:self._m], 2)`.
Reversing the zero-padded binary string and taking the first `m` characters
yields the `m` least significant bits of `i`, least significant first, which
`int(·, 2)` then reads most-significant-first.  Hence
`y = Σ_{j<m} bit_j(i) · 2^(m-1-j)`, the `m`-bit bit-reversal of `i mod 2^m`,
independent of `num_qubits` (always `≥ m`, since
`num_qubits = num_target_qubits + m + num_ancillas`). -/
def bitRev : ℕ → ℕ → ℕ
  | 0, _ => 0
  | m + 1, i => i % 2 * 2 ^ m + bitRev m (i / 2)

/-- The symmetry fold of lines 169-170:
`if y >= int(self._M / 2): y = self._M - y`. -/
def foldIndex (M y : ℕ) : ℕ :=
  if M / 2 ≤ y then M - y else y

/-- `np.round(x, decimals=7)`: rounding to 7 decimal places (the float
round-half-to-even tie rule is immaterial here; `round` resolves the
measure-zero tie case). -/
def round7 (x : ℝ) : ℝ :=
  ((round (x * 10 ^ 7) : ℤ) : ℝ) / 10 ^ 7

/-- Amplitude key of the statevector branch (lines 169-172): the folded index
mapped through `round(sin²(y·π/2^m), 7)`. -/
def aKeySV (m y : ℕ) : ℝ :=
  round7 (Real.sin ((foldIndex (2 ^ m) y : ℕ) * Real.pi / 2 ^ m) ^ 2)

/-- `_evaluate_statevector_results` (lines 159-175): aggregate the dense
probability array by grid index, then re-aggregate by rounded folded
amplitude.  Returns `(a_probabilities, y_probabilities)` like the source. -/
def evaluateStatevectorResults (m : ℕ) (probabilities : List ℝ) :
    List (ℝ × ℝ) × List (ℕ × ℝ) :=
  let y_probabilities := accumBy (fun ip => bitRev m ip.1) (fun ip => ip.2)
    (enumFrom 0 probabilities)
  let a_probabilities := accumBy (fun yp => aKeySV m yp.1) (fun yp => yp.2)
    y_probabilities
  (a_probabilities, y_probabilities)

/-! ### The count (QASM) branch of `_run` -/

/-- `int(s, 2)` on a bitstring given most-significant-first. -/
def bitsToNat (bs : List Bool) : ℕ :=
  bs.foldl (fun n b => 2 * n + (if b then 1 else 0)) 0

/-- Grid index from a measured bitstring (line 211):
`y = int(state.replace(' ', '')[:self._m][::-1], 2)` — first `m` characters,
reversed, read as binary.  States are modelled as space-free lists of bits. -/
def yOfState (m : ℕ) (bits : List Bool) : ℕ :=
  bitsToNat ((bits.take m).reverse)

/-- The count-branch aggregation of `_run` (lines 207-215).  For each
`(state, counts)` pair: `y_probabilities[y] = p` (plain assignment) and
`a_probabilities[a] = a_probabilities.get(a, 0.0) + p` with
`a = sin²(y·π/2^m)` — note: no folding and no rounding of `y` here.
Returns `(y_probabilities, a_probabilities)`. -/
def qasmAggregate (m : ℕ) (counts : List (List Bool × ℕ)) :
    List (ℕ × ℝ) × List (ℝ × ℝ) :=
  let shots : ℕ := (counts.map (fun x => x.2)).sum
  counts.foldl
    (fun acc sc =>
      let y := yOfState m sc.1
      let p : ℝ := (sc.2 : ℝ) / (shots : ℝ)
      (setKey y p acc.1, upsert (Real.sin ((y : ℕ) * Real.pi / 2 ^ m) ^ 2) p acc.2))
    ([], [])

/-! ### Sorting of the item lists (lines 217-225)

`sorted` on Python tuples is the lexicographic order; the filtered
assignments of lines 218-219 are overwritten by the unfiltered ones of
lines 220-221 and therefore have no effect, so only the unfiltered lists
are embedded. -/

def pairLE {K : Type} [LinearOrder K] (x y : K × ℝ) : Prop :=
  x.1 < y.1 ∨ (x.1 = y.1 ∧ x.2 ≤ y.2)

instance {K : Type} [LinearOrder K] : IsTotal (K × ℝ) pairLE := by
  constructor
  intro a b
  rcases lt_trichotomy a.1 b.1 with h | h | h
  · exact Or.inl (Or.inl h)
  · rcases le_total a.2 b.2 with h2 | h2
    · exact Or.inl (Or.inr ⟨h, h2⟩)
    · exact Or.inr (Or.inr ⟨h.symm, h2⟩)
  · exact Or.inr (Or.inl h)

instance {K : Type} [LinearOrder K] : IsTrans (K × ℝ) pairLE := by
  constructor
  intro a b c hab hbc
  rcases hab with h | ⟨he, h2⟩
  · rcases hbc with h' | ⟨he', _⟩
    · exact Or.inl (h.trans h')
    · exact Or.inl (he' ▸ h)
  · rcases hbc with h' | ⟨he', h2'⟩
    · exact Or.inl (he ▸ h')
    · exact Or.inr ⟨he.trans he', h2.trans h2'⟩

def sortItems {K : Type} [LinearOrder K] (d : List (K × ℝ)) : List (K × ℝ) :=
  d.insertionSort pairLE

/-! ### The stored result record `self._ret` -/

structure Ret where
  counts : List (List Bool × ℕ)
  a_items : List (ℝ × ℝ)
  y_items : List (ℕ × ℝ)
  mapped_values : List ℝ
  values : List ℝ
  y_values : List ℕ
  probabilities : List ℝ
  mapped_items : List (ℝ × ℝ)
  estimation : Option ℝ
  max_probability : ℝ
  mle : Option ℝ
  mle_value : Option ℝ

/-- The most-likely-estimator loop of `_run` (lines 237-243): start from
`estimation = None, max_probability = 0` and replace whenever
`prob > max_probability`. -/
def mostLikely (mapped_items : List (ℝ × ℝ)) : Option ℝ × ℝ :=
  mapped_items.foldl
    (fun acc vp => if acc.2 < vp.2 then (some vp.1, vp.2) else acc) (none, 0)

/-- Lines 217-243 of `_run`: build the stored record from the aggregated
distributions.  `value_to_estimation` is the problem's domain mapping
(`self.a_factory.value_to_estimation`), an external collaborator. -/
def buildRet (value_to_estimation : ℝ → ℝ) (counts : List (List Bool × ℕ))
    (a_probabilities : List (ℝ × ℝ)) (y_probabilities : List (ℕ × ℝ)) : Ret :=
  let a_items := sortItems a_probabilities
  let y_items := sortItems y_probabilities
  let mapped_values := a_items.map (fun it => value_to_estimation it.1)
  let values := a_items.map (fun it => it.1)
  let y_values := y_items.map (fun it => it.1)
  let probabilities := a_items.map (fun it => it.2)
  let mapped_items := mapped_values.zip probabilities
  let best := mostLikely mapped_items
  { counts := counts
    a_items := a_items
    y_items := y_items
    mapped_values := mapped_values
    values := values
    y_values := y_values
    probabilities := probabilities
    mapped_items := mapped_items
    estimation := best.1
    max_probability := best.2
    mle := none
    mle_value := none }

/-! ### Spec-modelled external utilities -/

/-- Modelled from the spec: `qiskit.aqua.utils.loglik` is imported by `ae.py`
but is not under `src/`.  Spec §4.2: `loglik(θ)` is the log of the
probability, under parameter `θ`, of observing the empirical distribution
`(a_i, p_i)` over `shots` independent trials, i.e.
`Σ_i shots · p_i · log P(a_i; θ, m)`.  The single-outcome probability model
`P` (`pdf_a` in the source tree) is likewise missing from `src/` and the
spec gives no closed form for it, so it is the explicit parameter `pdf`. -/
def loglik (pdf : ℝ → ℝ → ℕ → ℝ) (theta : ℝ) (m : ℕ) (ai pi : List ℝ)
    (shots : ℕ) : ℝ :=
  ((ai.zip pi).map (fun x => (shots : ℝ) * x.2 * Real.log (pdf x.1 theta m))).sum

/-- Modelled from the spec: `qiskit.aqua.utils.normal_quantile` is not under
`src/`.  The standard normal cumulative distribution function, via the
Gaussian measure with mean 0 and variance 1. -/
def normalCdf (x : ℝ) : ℝ :=
  (ProbabilityTheory.gaussianReal 0 1 (Set.Iic x)).toReal

/-- Modelled from the spec: "`z(alpha)` is the two-sided normal quantile for
confidence level `1-alpha`" (§4.5), i.e. the generalized inverse of the
standard normal CDF at `1 - alpha/2`. -/
def normal_quantile (alpha : ℝ) : ℝ :=
  sInf {x : ℝ | 1 - alpha / 2 ≤ normalCdf x}

/-- Modelled from the spec: `qiskit.aqua.utils.chi2_quantile` is not under
`src/`.  CDF of the chi-squared distribution with one degree of freedom (the
likelihood-ratio test of §4.5 has a single scalar parameter): the law of
`Z²` for standard normal `Z`. -/
def chi2Cdf (x : ℝ) : ℝ :=
  (ProbabilityTheory.gaussianReal 0 1 {t : ℝ | t ^ 2 ≤ x}).toReal

/-- Modelled from the spec: the chi-squared quantile used for the
likelihood-ratio threshold (§4.5), i.e. the generalized inverse of the
chi-squared(1) CDF at level `1 - alpha`. -/
def chi2_quantile (alpha : ℝ) : ℝ :=
  sInf {x : ℝ | 1 - alpha ≤ chi2Cdf x}

/-! ### `mle` (lines 247-305) -/

/-- Lines 248-251 (also 308-310): `shots = 1` on a statevector backend,
otherwise the total number of counts. -/
def shotsOf (is_statevector : Bool) (ret : Ret) : ℕ :=
  if is_statevector then 1 else (ret.counts.map (fun x => x.2)).sum

/-- The singularities of the log-likelihood (lines 261-265):
`np.sin(np.pi * np.linspace(0, 0.5, num=M/2, endpoint=False))**2` with `1`
appended; `np.linspace(0, 0.5, num=n, endpoint=False)` is `i·(0.5/n)` for
`i < n`. -/
def drops (m : ℕ) : List ℝ :=
  ((List.range (2 ^ m / 2)).map
    (fun i : ℕ =>
      Real.sin (Real.pi * ((i : ℝ) * (0.5 / (2 ^ m / 2 : ℕ)))) ^ 2)) ++ [1]

/-- `mle` (lines 247-305), in the non-diagnostics path.  `bisect_max` is the
external maximizer from `qiskit.aqua.utils` (not under `src/`; spec §4.3
describes it only behaviourally), passed as a parameter returning
`(argmax, value)`.  The search candidate is seeded with
`self._ret['estimation']` (line 269) — the domain-mapped most likely value —
and its log-likelihood; each interval between consecutive drops is searched
and the candidate replaced when a larger likelihood is found (lines 271-275).
`None` estimation makes the source crash in `loglik` (`TypeError`), modelled
by `none`.  Lines 302-303 store `value_to_estimation(a_opt)` and `a_opt`. -/
def mleRun (pdf : ℝ → ℝ → ℕ → ℝ)
    (bisect_max : (ℝ → ℝ) → ℝ → ℝ → ℝ × ℝ)
    (value_to_estimation : ℝ → ℝ)
    (is_statevector : Bool) (m : ℕ) (ret : Ret) : Option Ret :=
  let shots := shotsOf is_statevector ret
  let loglik_wrapper := fun theta => loglik pdf theta m ret.values ret.probabilities shots
  match ret.estimation with
  | none => none
  | some a_opt0 =>
    let init := (a_opt0, loglik_wrapper a_opt0)
    let ds := drops m
    let fin := (ds.zip ds.tail).foldl
      (fun acc ab =>
        let r := bisect_max loglik_wrapper ab.1 ab.2
        if acc.2 < r.2 then r else acc) init
    some { ret with
      mle := some (value_to_estimation fin.1)
      mle_value := some fin.1 }

/-! ### `ci` (lines 307-347) -/

/-- The evaluation grid of the likelihood-ratio method (line 334):
`np.linspace(0, 1, num=10000)`, i.e. `i/9999` for `i < 10000`. -/
def aGrid : List ℝ :=
  (List.range 10000).map (fun i : ℕ => (i : ℝ) / 9999)

/-- Error message of the unsupported-kind branch (line 345). -/
def unknownKindMsg (kind : String) : String :=
  "Confidence interval kind " ++ kind ++ " not implemented."

/-- Error raised by `np.min` on an empty selection (line 343 when no grid
point reaches the threshold). -/
def emptyReductionMsg : String :=
  "zero-size array to reduction operation minimum which has no identity"

/-- The `fisher` branch of `ci` (lines 319-321):
`std = sqrt(shots * fisher_information(mle, m))`,
interval `mle + normal_quantile(alpha)/std * [-1, 1]`. -/
def ciFisher (fisher_information : ℝ → ℕ → ℝ) (shots : ℕ) (mle alpha : ℝ)
    (m : ℕ) : Except String (ℝ × ℝ) :=
  let std := Real.sqrt ((shots : ℝ) * fisher_information mle m)
  .ok (mle - normal_quantile alpha / std, mle + normal_quantile alpha / std)

/-- The `observed_fisher` branch of `ci` (lines 323-326):
`observed_information = sum(shots * pi * d_logprob(ai, mle, m)**2)`, then the
same normal-quantile interval around `mle`. -/
def ciObservedFisher (d_logprob : ℝ → ℝ → ℕ → ℝ) (shots : ℕ) (ai pi : List ℝ)
    (mle alpha : ℝ) (m : ℕ) : Except String (ℝ × ℝ) :=
  let observed_information :=
    ((ai.zip pi).map (fun x => (shots : ℝ) * x.2 * d_logprob x.1 mle m ^ 2)).sum
  let std := Real.sqrt observed_information
  .ok (mle - normal_quantile alpha / std, mle + normal_quantile alpha / std)

/-- `np.append(np.min(l), np.max(l))` on a selection `l` (line 343);
`np.min`/`np.max` raise on an empty selection. -/
def npMinMax : List ℝ → Except String (ℝ × ℝ)
  | [] => .error emptyReductionMsg
  | x :: xs => .ok (xs.foldl min x, xs.foldl max x)

/-- The admitted grid points of the likelihood-ratio branch (lines 335-340):
those whose log-likelihood is at or above
`loglik(mle) - chi2_quantile(alpha)/2`. -/
def lrAdmitted (pdf : ℝ → ℝ → ℕ → ℝ) (shots : ℕ) (ai pi : List ℝ)
    (mle alpha : ℝ) (m : ℕ) : List ℝ :=
  aGrid.filter (fun theta =>
    decide (loglik pdf mle m ai pi shots - chi2_quantile alpha / 2
      ≤ loglik pdf theta m ai pi shots))

/-- The `likelihood_ratio` branch of `ci` (lines 328-343): log-likelihoods on
the 10000-point grid, threshold `loglik(mle) - chi2_quantile(alpha)/2`,
interval from the minimum and maximum admitted grid points. -/
def ciLR (pdf : ℝ → ℝ → ℕ → ℝ) (shots : ℕ) (ai pi : List ℝ) (mle alpha : ℝ)
    (m : ℕ) : Except String (ℝ × ℝ) :=
  npMinMax (lrAdmitted pdf shots ai pi mle alpha m)

/-- The value computed by `ci` (lines 307-347).  Reading
`self._ret['mle_value']` before `mle()` has run raises `KeyError`
(modelled by the `none` branch).  `fisher_information` and `d_logprob` are
external utilities not under `src/` (spec §4.5 gives no closed form),
passed as parameters.  `np.sqrt` is modelled by `Real.sqrt` (its arguments
are nonnegative in every actual run). -/
def ciResult (pdf : ℝ → ℝ → ℕ → ℝ) (fisher_information : ℝ → ℕ → ℝ)
    (d_logprob : ℝ → ℝ → ℕ → ℝ)
    (is_statevector : Bool) (m : ℕ) (ret : Ret) (alpha : ℝ) (kind : String) :
    Except String (ℝ × ℝ) :=
  let shots := shotsOf is_statevector ret
  match ret.mle_value with
  | none => .error "KeyError: mle_value"
  | some mle =>
    if kind = "fisher" then
      ciFisher fisher_information shots mle alpha m
    else if kind = "observed_fisher" then
      ciObservedFisher d_logprob shots ret.values ret.probabilities mle alpha m
    else if kind = "likelihood_ratio" then
      ciLR pdf shots ret.values ret.probabilities mle alpha m
    else
      .error (unknownKindMsg kind)

/-- The `ci` method as a state transformer on the stored record: the body
contains no assignment to `self._ret`, so the record passes through
unchanged alongside the computed value. -/
def ciRun (pdf : ℝ → ℝ → ℕ → ℝ) (fisher_information : ℝ → ℕ → ℝ)
    (d_logprob : ℝ → ℝ → ℕ → ℝ)
    (is_statevector : Bool) (m : ℕ) (ret : Ret) (alpha : ℝ) (kind : String) :
    Except String (ℝ × ℝ) × Ret :=
  (ciResult pdf fisher_information d_logprob is_statevector m ret alpha kind, ret)

/-! ### Concrete scenario data -/

/-- An empty result record, used to instantiate concrete scenarios. -/
def emptyRet : Ret :=
  { counts := []
    a_items := []
    y_items := []
    mapped_values := []
    values := []
    y_values := []
    probabilities := []
    mapped_items := []
    estimation := none
    max_probability := 0
    mle := none
    mle_value := none }

/-- A record holding the single-point aggregated distribution of the spec's
§8 concrete scenario (`m = 3`, all mass at the amplitude `1/2`). -/
def simpleRet : Ret :=
  { emptyRet with values := [1 / 2], probabilities := [1] }

/-- Steepness used for a sharply peaked likelihood model: large enough that
no grid point of the 10000-point grid stays within the likelihood-ratio
threshold. -/
def lrSharpK : ℝ :=
  19998 * (chi2_quantile (1 / 2) + 1)

/-- A single-outcome probability model (an instance of the external `pdf_a`,
whose closed form the spec does not fix) whose log-likelihood for the
`simpleRet` data is the sharply peaked `-lrSharpK·|θ - 1/2|`: continuous,
maximal exactly at the grid amplitude `1/2 = sin²(2·π/8)`, with a cusp
there, and unimodal — the qualitative shape the spec describes, arising from
arbitrarily many shots. -/
def pdfSharp : ℝ → ℝ → ℕ → ℝ :=
  fun _ theta _ => Real.exp (-(lrSharpK * |theta - 1 / 2|))

end

/-! ### Generic lemmas about the dict operations -/

theorem sumValues_upsert {K : Type} [DecidableEq K] (k : K) (p : ℝ) :
    ∀ d : List (K × ℝ), sumValues (upsert k p d) = sumValues d + p := by
  intro d
  induction d with
  | nil => simp [upsert, sumValues]
  | cons e rest ih =>
    obtain ⟨k', v⟩ := e
    by_cases h : k' = k
    · simp only [upsert, if_pos h, sumValues, List.map_cons, List.sum_cons]
      ring
    · simp only [upsert, if_neg h, sumValues, List.map_cons, List.sum_cons] at ih ⊢
      rw [ih]
      ring

theorem getVal_cons {K : Type} [DecidableEq K] (k' : K) (v : ℝ)
    (rest : List (K × ℝ)) (a : K) :
    getVal ((k', v) :: rest) a = (if k' = a then v else 0) + getVal rest a := by
  by_cases h : k' = a <;> simp [getVal, List.filter_cons, h]

theorem getVal_upsert {K : Type} [DecidableEq K] (k a : K) (p : ℝ) :
    ∀ d : List (K × ℝ),
      getVal (upsert k p d) a = getVal d a + (if k = a then p else 0) := by
  intro d
  induction d with
  | nil =>
    by_cases h : k = a <;> simp [upsert, getVal_cons, getVal, h]
  | cons e rest ih =>
    obtain ⟨k', v⟩ := e
    by_cases h : k' = k
    · subst h
      have hu : upsert k' p ((k', v) :: rest) = (k', v + p) :: rest := by
        simp [upsert]
      rw [hu, getVal_cons, getVal_cons]
      by_cases ha : k' = a
      · simp [ha]
        ring
      · simp [ha]
    · simp only [upsert, if_neg h, getVal_cons, ih]
      ring

theorem mem_upsert {K : Type} [DecidableEq K] (k : K) (p : ℝ) :
    ∀ (d : List (K × ℝ)) (e : K × ℝ), e ∈ upsert k p d → e.1 = k ∨ e ∈ d := by
  intro d
  induction d with
  | nil =>
    intro e he
    simp only [upsert, List.mem_singleton] at he
    exact Or.inl (by rw [he])
  | cons f rest ih =>
    intro e he
    obtain ⟨k', v⟩ := f
    by_cases h : k' = k
    · simp only [upsert, if_pos h, List.mem_cons] at he
      rcases he with he | he
      · exact Or.inl (by rw [he, h])
      · exact Or.inr (List.mem_cons_of_mem _ he)
    · simp only [upsert, if_neg h, List.mem_cons] at he
      rcases he with he | he
      · exact Or.inr (by simp [he])
      · rcases ih e he with h1 | h1
        · exact Or.inl h1
        · exact Or.inr (List.mem_cons_of_mem _ h1)

theorem foldl_upsert_sumValues {α K : Type} [DecidableEq K]
    (key : α → K) (val : α → ℝ) :
    ∀ (l : List α) (acc : List (K × ℝ)),
      sumValues (l.foldl (fun acc x => upsert (key x) (val x) acc) acc)
        = sumValues acc + (l.map val).sum := by
  intro l
  induction l with
  | nil => simp
  | cons x xs ih =>
    intro acc
    simp only [List.foldl_cons, List.map_cons, List.sum_cons]
    rw [ih, sumValues_upsert]
    ring

theorem sumValues_accumBy {α K : Type} [DecidableEq K]
    (key : α → K) (val : α → ℝ) (l : List α) :
    sumValues (accumBy key val l) = (l.map val).sum := by
  have h := foldl_upsert_sumValues key val l []
  simpa [accumBy, sumValues] using h

theorem foldl_upsert_getVal {α K : Type} [DecidableEq K]
    (key : α → K) (val : α → ℝ) (a : K) :
    ∀ (l : List α) (acc : List (K × ℝ)),
      getVal (l.foldl (fun acc x => upsert (key x) (val x) acc) acc) a
        = getVal acc a + ((l.filter (fun x => decide (key x = a))).map val).sum := by
  intro l
  induction l with
  | nil => simp
  | cons x xs ih =>
    intro acc
    simp only [List.foldl_cons, List.filter_cons]
    rw [ih]
    by_cases h : key x = a
    · have hd : decide (key x = a) = true := by simp [h]
      simp only [hd, if_true, List.map_cons, List.sum_cons]
      rw [getVal_upsert, if_pos h]
      ring
    · have hd : decide (key x = a) = false := by simp [h]
      simp only [hd, Bool.false_eq_true, if_false]
      rw [getVal_upsert, if_neg h, add_zero]

theorem getVal_accumBy {α K : Type} [DecidableEq K]
    (key : α → K) (val : α → ℝ) (a : K) (l : List α) :
    getVal (accumBy key val l) a
      = ((l.filter (fun x => decide (key x = a))).map val).sum := by
  have h := foldl_upsert_getVal key val a l []
  simpa [accumBy, getVal] using h

theorem foldl_upsert_mem {α K : Type} [DecidableEq K]
    (key : α → K) (val : α → ℝ) :
    ∀ (l : List α) (acc : List (K × ℝ)) (e : K × ℝ),
      e ∈ l.foldl (fun acc x => upsert (key x) (val x) acc) acc →
        e ∈ acc ∨ ∃ x ∈ l, e.1 = key x := by
  intro l
  induction l with
  | nil =>
    intro acc e he
    exact Or.inl he
  | cons x xs ih =>
    intro acc e he
    simp only [List.foldl_cons] at he
    rcases ih _ _ he with h1 | ⟨x', hx', hk⟩
    · rcases mem_upsert _ _ _ _ h1 with h2 | h2
      · exact Or.inr ⟨x, List.mem_cons_self _ _, h2⟩
      · exact Or.inl h2
    · exact Or.inr ⟨x', List.mem_cons_of_mem _ hx', hk⟩

theorem mem_accumBy {α K : Type} [DecidableEq K]
    (key : α → K) (val : α → ℝ) (l : List α) (e : K × ℝ)
    (he : e ∈ accumBy key val l) : ∃ x ∈ l, e.1 = key x := by
  rcases foldl_upsert_mem key val l [] e he with h | h
  · simp at h
  · exact h

theorem foldl_pair_snd {α A B : Type} (f : A → α → A) (g : B → α → B) :
    ∀ (l : List α) (a : A) (b : B),
      (l.foldl (fun p x => (f p.1 x, g p.2 x)) (a, b)).2 = l.foldl g b := by
  intro l
  induction l with
  | nil => intro a b; rfl
  | cons x xs ih => intro a b; simpa using ih (f a x) (g b x)

theorem foldl_pair_fst {α A B : Type} (f : A → α → A) (g : B → α → B) :
    ∀ (l : List α) (a : A) (b : B),
      (l.foldl (fun p x => (f p.1 x, g p.2 x)) (a, b)).1 = l.foldl f a := by
  intro l
  induction l with
  | nil => intro a b; rfl
  | cons x xs ih => intro a b; simpa using ih (f a x) (g b x)

/-! ### `enumFrom`, `bitRev`, `foldIndex` lemmas -/

theorem enumFrom_map_snd {α : Type} :
    ∀ (n : ℕ) (l : List α), (enumFrom n l).map (fun e => e.2) = l := by
  intro n l
  induction l generalizing n with
  | nil => rfl
  | cons a as ih => simp [enumFrom, ih]

theorem bitRev_lt : ∀ (m i : ℕ), bitRev m i < 2 ^ m := by
  intro m
  induction m with
  | zero => intro i; simp [bitRev]
  | succ m ih =>
    intro i
    have h1 : i % 2 ≤ 1 := Nat.lt_succ_iff.mp (Nat.mod_lt i (by norm_num))
    have h2 := ih (i / 2)
    have : i % 2 * 2 ^ m ≤ 2 ^ m := by
      calc i % 2 * 2 ^ m ≤ 1 * 2 ^ m := Nat.mul_le_mul_right _ h1
        _ = 2 ^ m := one_mul _
    calc bitRev (m + 1) i = i % 2 * 2 ^ m + bitRev m (i / 2) := rfl
      _ < i % 2 * 2 ^ m + 2 ^ m := by omega
      _ ≤ 2 ^ m + 2 ^ m := by omega
      _ = 2 ^ (m + 1) := by ring

theorem foldIndex_le_half {m y : ℕ} (hm : 1 ≤ m) (hy : y < 2 ^ m) :
    foldIndex (2 ^ m) y ≤ 2 ^ m / 2 := by
  obtain ⟨k, rfl⟩ : ∃ k, m = k + 1 := ⟨m - 1, by omega⟩
  have hpow : 2 ^ (k + 1) = 2 * 2 ^ k := by ring
  have hhalf : 2 ^ (k + 1) / 2 = 2 ^ k := by omega
  unfold foldIndex
  split <;> omega

/-! ### Minimum/maximum of a nonempty fold -/

theorem foldl_min_mem {α : Type} [LinearOrder α] :
    ∀ (xs : List α) (x : α), xs.foldl min x ∈ x :: xs := by
  intro xs
  induction xs with
  | nil => intro x; simp
  | cons y ys ih =>
    intro x
    simp only [List.foldl_cons]
    rcases List.mem_cons.mp (ih (min x y)) with h1 | h1
    · rcases min_choice x y with hc | hc
      · rw [h1, hc]
        exact List.mem_cons_self _ _
      · rw [h1, hc]
        exact List.mem_cons_of_mem _ (List.mem_cons_self _ _)
    · exact List.mem_cons_of_mem _ (List.mem_cons_of_mem _ h1)

theorem foldl_min_le_init {α : Type} [LinearOrder α] :
    ∀ (xs : List α) (x : α), xs.foldl min x ≤ x := by
  intro xs
  induction xs with
  | nil => intro x; simp
  | cons y ys ih =>
    intro x
    simp only [List.foldl_cons]
    exact (ih (min x y)).trans (min_le_left _ _)

theorem foldl_min_le_mem {α : Type} [LinearOrder α] :
    ∀ (xs : List α) (x y : α), y ∈ xs → xs.foldl min x ≤ y := by
  intro xs
  induction xs with
  | nil => intro x y hy; simp at hy
  | cons z zs ih =>
    intro x y hy
    simp only [List.foldl_cons]
    rcases List.mem_cons.mp hy with h | h
    · subst h
      exact (foldl_min_le_init zs _).trans (min_le_right _ _)
    · exact ih _ _ h

theorem foldl_max_mem {α : Type} [LinearOrder α] :
    ∀ (xs : List α) (x : α), xs.foldl max x ∈ x :: xs := by
  intro xs
  induction xs with
  | nil => intro x; simp
  | cons y ys ih =>
    intro x
    simp only [List.foldl_cons]
    rcases List.mem_cons.mp (ih (max x y)) with h1 | h1
    · rcases max_choice x y with hc | hc
      · rw [h1, hc]
        exact List.mem_cons_self _ _
      · rw [h1, hc]
        exact List.mem_cons_of_mem _ (List.mem_cons_self _ _)
    · exact List.mem_cons_of_mem _ (List.mem_cons_of_mem _ h1)

theorem foldl_max_init_le {α : Type} [LinearOrder α] :
    ∀ (xs : List α) (x : α), x ≤ xs.foldl max x := by
  intro xs
  induction xs with
  | nil => intro x; simp
  | cons y ys ih =>
    intro x
    simp only [List.foldl_cons]
    exact (le_max_left _ _).trans (ih (max x y))

theorem foldl_max_mem_le {α : Type} [LinearOrder α] :
    ∀ (xs : List α) (x y : α), y ∈ xs → y ≤ xs.foldl max x := by
  intro xs
  induction xs with
  | nil => intro x y hy; simp at hy
  | cons z zs ih =>
    intro x y hy
    simp only [List.foldl_cons]
    rcases List.mem_cons.mp hy with h | h
    · subst h
      exact (le_max_right _ _).trans (foldl_max_init_le zs _)
    · exact ih _ _ h

/-! ### Facts about the modelled quantile functions -/

theorem chi2Cdf_of_neg {x : ℝ} (hx : x < 0) : chi2Cdf x = 0 := by
  have hempty : {t : ℝ | t ^ 2 ≤ x} = ∅ := by
    ext t
    simp only [Set.mem_setOf_eq, Set.mem_empty_iff_false, iff_false, not_le]
    nlinarith [sq_nonneg t]
  rw [chi2Cdf, hempty]
  simp

theorem chi2_quantile_nonneg {alpha : ℝ} (h : alpha < 1) :
    0 ≤ chi2_quantile alpha := by
  apply Real.sInf_nonneg
  intro x hx
  by_contra hneg
  push_neg at hneg
  rw [Set.mem_setOf_eq, chi2Cdf_of_neg hneg] at hx
  linarith

theorem normalCdf_zero : normalCdf 0 = 1 / 2 := by
  set f := ProbabilityTheory.gaussianPDFReal 0 1 with hf
  have heven : ∀ x : ℝ, f (-x) = f x := by
    intro x
    simp [hf, ProbabilityTheory.gaussianPDFReal, neg_sq]
  have hint : MeasureTheory.Integrable f :=
    ProbabilityTheory.integrable_gaussianPDFReal 0 1
  have hsym : (∫ x in Set.Iic (0 : ℝ), f x) = ∫ x in Set.Ioi (0 : ℝ), f x := by
    have h := integral_comp_neg_Iic (0 : ℝ) f
    simp only [heven, neg_zero] at h
    exact h
  have hsplit : (∫ x in Set.Iic (0 : ℝ), f x) + (∫ x in Set.Ioi (0 : ℝ), f x)
      = ∫ x, f x := by
    have h := MeasureTheory.integral_add_compl
      (measurableSet_Iic : MeasurableSet (Set.Iic (0 : ℝ))) hint
    rwa [Set.compl_Iic] at h
  have htot : (∫ x, f x) = 1 :=
    ProbabilityTheory.integral_gaussianPDFReal_eq_one 0 one_ne_zero
  have hIic : (∫ x in Set.Iic (0 : ℝ), f x) = 1 / 2 := by linarith
  rw [normalCdf, ProbabilityTheory.gaussianReal_apply_eq_integral 0 one_ne_zero]
  rw [← hf, hIic]
  rw [ENNReal.toReal_ofReal (by norm_num)]

theorem normalCdf_mono {x y : ℝ} (h : x ≤ y) : normalCdf x ≤ normalCdf y := by
  apply ENNReal.toReal_mono (MeasureTheory.measure_ne_top _ _)
  exact MeasureTheory.measure_mono (Set.Iic_subset_Iic.mpr h)

theorem normal_quantile_nonneg {alpha : ℝ} (h : alpha < 1) :
    0 ≤ normal_quantile alpha := by
  apply Real.sInf_nonneg
  intro x hx
  by_contra hneg
  push_neg at hneg
  have hle : normalCdf x ≤ 1 / 2 := by
    calc normalCdf x ≤ normalCdf 0 := normalCdf_mono hneg.le
      _ = 1 / 2 := normalCdf_zero
  rw [Set.mem_setOf_eq] at hx
  linarith

/-! ### Sort lemmas -/

theorem sortItems_pairwise_key {K : Type} [LinearOrder K] (d : List (K × ℝ)) :
    (sortItems d).Pairwise (fun x y => x.1 ≤ y.1) := by
  have h : (sortItems d).Pairwise pairLE := List.sorted_insertionSort pairLE d
  refine h.imp ?_
  intro x y hxy
  rcases hxy with h1 | ⟨h1, _⟩
  · exact h1.le
  · exact h1.le

theorem sortItems_mem {K : Type} [LinearOrder K] (d : List (K × ℝ)) (e : K × ℝ) :
    e ∈ sortItems d ↔ e ∈ d :=
  (List.perm_insertionSort pairLE d).mem_iff

/-! ### Projection lemmas -/

theorem ciRun_fst (pdf : ℝ → ℝ → ℕ → ℝ) (fisher_information : ℝ → ℕ → ℝ)
    (d_logprob : ℝ → ℝ → ℕ → ℝ) (is_statevector : Bool) (m : ℕ) (ret : Ret)
    (alpha : ℝ) (kind : String) :
    (ciRun pdf fisher_information d_logprob is_statevector m ret alpha kind).1
      = ciResult pdf fisher_information d_logprob is_statevector m ret alpha
          kind :=
  rfl

theorem evalSV_snd (m : ℕ) (probabilities : List ℝ) :
    (evaluateStatevectorResults m probabilities).2
      = accumBy (fun ip => bitRev m ip.1) (fun ip => ip.2)
          (enumFrom 0 probabilities) :=
  rfl

theorem evalSV_fst (m : ℕ) (probabilities : List ℝ) :
    (evaluateStatevectorResults m probabilities).1
      = accumBy (fun yp => aKeySV m yp.1) (fun yp => yp.2)
          (evaluateStatevectorResults m probabilities).2 :=
  rfl

/-- Unfolding of `ciResult` on a record whose `mle_value` is present
(definitional; spelled out once so the branch analyses below can avoid
re-unfolding the definition). -/
theorem ciResult_some (pdf : ℝ → ℝ → ℕ → ℝ) (fisher_information : ℝ → ℕ → ℝ)
    (d_logprob : ℝ → ℝ → ℕ → ℝ) (is_statevector : Bool) (m : ℕ) (ret : Ret)
    (mv alpha : ℝ) (kind : String) :
    ciResult pdf fisher_information d_logprob is_statevector m
        { ret with mle_value := some mv } alpha kind
      = (if kind = "fisher" then
          ciFisher fisher_information (shotsOf is_statevector ret) mv alpha m
        else if kind = "observed_fisher" then
          ciObservedFisher d_logprob (shotsOf is_statevector ret) ret.values
            ret.probabilities mv alpha m
        else if kind = "likelihood_ratio" then
          ciLR pdf (shotsOf is_statevector ret) ret.values ret.probabilities
            mv alpha m
        else Except.error (unknownKindMsg kind)) :=
  rfl

/-- Unfolding of the likelihood-ratio branch. -/
theorem ciLR_eq (pdf : ℝ → ℝ → ℕ → ℝ) (shots : ℕ) (ai pi : List ℝ)
    (mle alpha : ℝ) (m : ℕ) :
    ciLR pdf shots ai pi mle alpha m
      = npMinMax (lrAdmitted pdf shots ai pi mle alpha m) :=
  rfl

/-- `npMinMax` never produces the unsupported-kind error. -/
theorem npMinMax_ne_unknownKindMsg (l : List ℝ) (kind : String)
    (hmsg : emptyReductionMsg ≠ unknownKindMsg kind) :
    npMinMax l ≠ Except.error (unknownKindMsg kind) := by
  cases l with
  | nil =>
    intro hcontra
    exact hmsg (Except.error.inj hcontra)
  | cons x xs =>
    intro hcontra
    exact Except.noConfusion hcontra

/-! ## Claims -/

/-- **C9**: For every input probability array, the aggregation in
`_evaluate_statevector_results` conserves total probability mass: the sum of
the values of the returned grid-space (`y`) distribution and the sum of the
values of the returned amplitude-space (`a`) distribution each equal the sum
of the input probabilities. -/
theorem C9_mass_conservation (m : ℕ) (probabilities : List ℝ) :
    sumValues (evaluateStatevectorResults m probabilities).2 = probabilities.sum
    ∧ sumValues (evaluateStatevectorResults m probabilities).1
        = probabilities.sum := by
  have hy : sumValues (evaluateStatevectorResults m probabilities).2
      = probabilities.sum := by
    show sumValues (accumBy _ _ _) = _
    rw [sumValues_accumBy, enumFrom_map_snd]
  refine ⟨hy, ?_⟩
  show sumValues (accumBy _ _ _) = _
  rw [sumValues_accumBy]
  exact hy

/-- **C10**: `ci(alpha, kind)` has no effect on the stored estimation state:
for every `alpha` and every supported or unsupported `kind`, the whole stored
record (hence all of `values`, `probabilities`, `mle_value`, `estimation` and
the rest) is unchanged after the call, whether it returns an interval or
raises.  The source method contains no assignment to `self._ret`, which the
state-transformer embedding `ciRun` makes explicit. -/
theorem C10_ci_frame (pdf : ℝ → ℝ → ℕ → ℝ) (fisher_information : ℝ → ℕ → ℝ)
    (d_logprob : ℝ → ℝ → ℕ → ℝ) (is_statevector : Bool) (m : ℕ) (ret : Ret)
    (alpha : ℝ) (kind : String) :
    (ciRun pdf fisher_information d_logprob is_statevector m ret alpha
      kind).2 = ret :=
  rfl

/-- **C6**: The `fisher` confidence-interval method returns exactly
`mle ± z(alpha)/sqrt(shots · I(mle, m))` where the information term is the
external `fisher_information` applied to `mle` and `m` only; in particular
the interval is symmetric around the MLE: `lo + hi = 2 · mle`.  Holds for
every information function, every stored record and every `alpha`. -/
theorem C6_fisher_formula (pdf : ℝ → ℝ → ℕ → ℝ) (fisher_information : ℝ → ℕ → ℝ)
    (d_logprob : ℝ → ℝ → ℕ → ℝ) (is_statevector : Bool) (m : ℕ) (ret : Ret)
    (mv alpha : ℝ) :
    ∃ lo hi,
      (ciRun pdf fisher_information d_logprob is_statevector m
          { ret with mle_value := some mv } alpha "fisher").1
        = .ok (lo, hi)
      ∧ lo = mv - normal_quantile alpha
          / Real.sqrt ((shotsOf is_statevector ret : ℝ) * fisher_information mv m)
      ∧ hi = mv + normal_quantile alpha
          / Real.sqrt ((shotsOf is_statevector ret : ℝ) * fisher_information mv m)
      ∧ lo + hi = 2 * mv := by
  refine ⟨_, _, ?_, rfl, rfl, by ring⟩
  rfl

/-- **C8**: The aggregation output lists (both the grid-space and the
amplitude-space distribution) are sorted ascending by key and contain every
entry of the aggregated probability maps, including entries with arbitrarily
small or zero probability — the filtered assignments of lines 218-219 are
dead code, overwritten by the unfiltered ones of lines 220-221. -/
theorem C8_items_sorted_complete (value_to_estimation : ℝ → ℝ)
    (counts : List (List Bool × ℕ)) (a_probabilities : List (ℝ × ℝ))
    (y_probabilities : List (ℕ × ℝ)) :
    ((buildRet value_to_estimation counts a_probabilities
        y_probabilities).a_items.Pairwise (fun x y => x.1 ≤ y.1)
      ∧ ∀ e, e ∈ (buildRet value_to_estimation counts a_probabilities
          y_probabilities).a_items ↔ e ∈ a_probabilities)
    ∧ ((buildRet value_to_estimation counts a_probabilities
        y_probabilities).y_items.Pairwise (fun x y => x.1 ≤ y.1)
      ∧ ∀ e, e ∈ (buildRet value_to_estimation counts a_probabilities
          y_probabilities).y_items ↔ e ∈ y_probabilities) := by
  refine ⟨⟨?_, ?_⟩, ?_, ?_⟩
  · exact sortItems_pairwise_key a_probabilities
  · exact fun e => sortItems_mem a_probabilities e
  · exact sortItems_pairwise_key y_probabilities
  · exact fun e => sortItems_mem y_probabilities e

/-- **C2 counterexample**: the grid (`y`) distribution returned by the
statevector aggregation keeps raw, unfolded keys: with `m = 2` (`M = 4`) and
all probability mass on joint state index `3`, the returned grid
distribution contains the key `3 > M/2 = 2`, contradicting the claim that
every key of the grid distribution is at most `M/2`. -/
theorem C2_counterexample :
    (3, (1 : ℝ)) ∈ (evaluateStatevectorResults 2 [0, 0, 0, 1]).2
    ∧ ¬((3 : ℕ) ≤ 2 ^ 2 / 2) := by
  have hb0 : bitRev 2 0 = 0 := by decide
  have hb1 : bitRev 2 1 = 2 := by decide
  have hb2 : bitRev 2 2 = 1 := by decide
  have hb3 : bitRev 2 3 = 3 := by decide
  constructor
  · rw [evalSV_snd]
    simp [accumBy, enumFrom, upsert, hb0, hb1, hb2, hb3]
  · decide

/-- **C2 (amended)**: the returned grid (`y`) distribution keeps raw keys in
`[0, M)` (no folding is applied to it); in the statevector path, the
amplitude keys are computed from the folded index
`fold(y) = if y ≥ M/2 then M - y else y`, which for `m ≥ 1` always lies at
or below `M/2`, with probability mass merged by summation on collision.
(The bitstring-count path of `_run` applies no folding at all.) -/
theorem C2_amended_folding (m : ℕ) (hm : 1 ≤ m) :
    (∀ (probabilities : List ℝ) (e : ℕ × ℝ),
        e ∈ (evaluateStatevectorResults m probabilities).2 → e.1 < 2 ^ m)
    ∧ (∀ y, y < 2 ^ m → foldIndex (2 ^ m) y ≤ 2 ^ m / 2)
    ∧ (∀ (probabilities : List ℝ) (e : ℝ × ℝ),
        e ∈ (evaluateStatevectorResults m probabilities).1 →
          ∃ y, y < 2 ^ m ∧ foldIndex (2 ^ m) y ≤ 2 ^ m / 2
            ∧ e.1 = round7 (Real.sin ((foldIndex (2 ^ m) y : ℕ) * Real.pi
                / 2 ^ m) ^ 2))
    ∧ (∀ (probabilities : List ℝ) (a : ℝ),
        getVal (evaluateStatevectorResults m probabilities).1 a
          = (((evaluateStatevectorResults m probabilities).2.filter
                (fun yp => decide (aKeySV m yp.1 = a))).map
              (fun yp => yp.2)).sum) := by
  have hykeys : ∀ (probabilities : List ℝ) (e : ℕ × ℝ),
      e ∈ (evaluateStatevectorResults m probabilities).2 → e.1 < 2 ^ m := by
    intro probabilities e he
    have he' : e ∈ accumBy (fun ip => bitRev m ip.1) (fun ip => ip.2)
        (enumFrom 0 probabilities) := he
    obtain ⟨x, _, hx⟩ := mem_accumBy _ _ _ _ he'
    rw [hx]
    exact bitRev_lt m x.1
  refine ⟨hykeys, fun y hy => foldIndex_le_half hm hy, ?_, ?_⟩
  · intro probabilities e he
    have he' : e ∈ accumBy (fun yp => aKeySV m yp.1) (fun yp => yp.2)
        (evaluateStatevectorResults m probabilities).2 := he
    obtain ⟨yp, hyp, hk⟩ := mem_accumBy _ _ _ _ he'
    refine ⟨yp.1, hykeys probabilities yp hyp,
      foldIndex_le_half hm (hykeys probabilities yp hyp), ?_⟩
    rw [hk]
    rfl
  · intro probabilities a
    exact getVal_accumBy _ _ _ _

/-- **C2 witness**: the amended statement instantiated at `m = 2`. -/
theorem C2_amended_folding_witness :
    (1 ≤ 2)
    ∧ ((∀ (probabilities : List ℝ) (e : ℕ × ℝ),
          e ∈ (evaluateStatevectorResults 2 probabilities).2 → e.1 < 2 ^ 2)
      ∧ (∀ y, y < 2 ^ 2 → foldIndex (2 ^ 2) y ≤ 2 ^ 2 / 2)
      ∧ (∀ (probabilities : List ℝ) (e : ℝ × ℝ),
          e ∈ (evaluateStatevectorResults 2 probabilities).1 →
            ∃ y, y < 2 ^ 2 ∧ foldIndex (2 ^ 2) y ≤ 2 ^ 2 / 2
              ∧ e.1 = round7 (Real.sin ((foldIndex (2 ^ 2) y : ℕ) * Real.pi
                  / 2 ^ 2) ^ 2))
      ∧ (∀ (probabilities : List ℝ) (a : ℝ),
          getVal (evaluateStatevectorResults 2 probabilities).1 a
            = (((evaluateStatevectorResults 2 probabilities).2.filter
                  (fun yp => decide (aKeySV 2 yp.1 = a))).map
                (fun yp => yp.2)).sum)) :=
  ⟨by norm_num, C2_amended_folding 2 (by norm_num)⟩

/-- **C7**: For every method name not among
`{fisher, observed_fisher, likelihood_ratio}`, `ci(alpha, kind)` fails with
the unsupported-kind error rather than silently returning a default
interval; for the three supported names the unsupported-kind branch is never
taken. -/
theorem C7_unknown_kind (pdf : ℝ → ℝ → ℕ → ℝ) (fisher_information : ℝ → ℕ → ℝ)
    (d_logprob : ℝ → ℝ → ℕ → ℝ) (is_statevector : Bool) (m : ℕ) (ret : Ret)
    (mv alpha : ℝ) :
    (∀ kind : String, kind ≠ "fisher" → kind ≠ "observed_fisher" →
      kind ≠ "likelihood_ratio" →
        (ciRun pdf fisher_information d_logprob is_statevector m
          { ret with mle_value := some mv } alpha kind).1
          = .error (unknownKindMsg kind))
    ∧ (∀ kind : String,
        kind = "fisher" ∨ kind = "observed_fisher" ∨ kind = "likelihood_ratio" →
        (ciRun pdf fisher_information d_logprob is_statevector m
          { ret with mle_value := some mv } alpha kind).1
          ≠ .error (unknownKindMsg kind)) := by
  constructor
  · intro kind h1 h2 h3
    rw [ciRun_fst, ciResult_some, if_neg h1, if_neg h2, if_neg h3]
  · intro kind hk
    rw [ciRun_fst, ciResult_some]
    rcases hk with rfl | rfl | rfl
    · rw [if_pos rfl]
      intro hcontra
      exact Except.noConfusion hcontra
    · rw [if_neg (by decide), if_pos rfl]
      intro hcontra
      exact Except.noConfusion hcontra
    · rw [if_neg (by decide), if_neg (by decide), if_pos rfl, ciLR_eq]
      exact npMinMax_ne_unknownKindMsg _ _ (by decide)

/-- **C7 witness**: the unknown name `"bogus"` raises, and `"fisher"` does
not hit the unsupported-kind branch, at a concrete configuration. -/
theorem C7_unknown_kind_witness :
    (ciRun (fun _ _ _ => 1) (fun _ _ => 1) (fun _ _ _ => 1) true 3
        { emptyRet with mle_value := some (1 / 2) } (1 / 2) "bogus").1
      = .error (unknownKindMsg "bogus")
    ∧ (ciRun (fun _ _ _ => 1) (fun _ _ => 1) (fun _ _ _ => 1) true 3
        { emptyRet with mle_value := some (1 / 2) } (1 / 2) "fisher").1
      ≠ .error (unknownKindMsg "fisher") :=
  ⟨(C7_unknown_kind (fun _ _ _ => 1) (fun _ _ => 1) (fun _ _ _ => 1) true 3
      emptyRet (1 / 2) (1 / 2)).1 "bogus" (by decide) (by decide) (by decide),
    (C7_unknown_kind (fun _ _ _ => 1) (fun _ _ => 1) (fun _ _ _ => 1) true 3
      emptyRet (1 / 2) (1 / 2)).2 "fisher" (Or.inl rfl)⟩

/-! ### The count-branch aggregation as a group-by -/

theorem qasm_snd (m : ℕ) (counts : List (List Bool × ℕ)) :
    (qasmAggregate m counts).2
      = accumBy
          (fun sc => Real.sin ((yOfState m sc.1 : ℕ) * Real.pi / 2 ^ m) ^ 2)
          (fun sc => (sc.2 : ℝ) / (((counts.map (fun x => x.2)).sum : ℕ) : ℝ))
          counts := by
  simp only [qasmAggregate, accumBy]
  generalize (counts.map (fun x => x.2)).sum = shots
  exact foldl_pair_snd
    (fun yd sc => setKey (yOfState m sc.1) ((sc.2 : ℝ) / (shots : ℝ)) yd)
    (fun ad sc => upsert
      (Real.sin ((yOfState m sc.1 : ℕ) * Real.pi / 2 ^ m) ^ 2)
      ((sc.2 : ℝ) / (shots : ℝ)) ad)
    counts [] []

/-! ### Irrationality of the unrounded count-branch key -/

theorem sin_sq_pi_div_eight_irrational :
    Irrational (Real.sin (Real.pi / 8) ^ 2) := by
  have hs2 : (0 : ℝ) ≤ 2 - Real.sqrt 2 := by
    nlinarith [Real.sq_sqrt (show (0 : ℝ) ≤ 2 by norm_num), Real.sqrt_nonneg 2]
  have h1 : Real.sin (Real.pi / 8) ^ 2 = (2 - Real.sqrt 2) / 4 := by
    rw [Real.sin_pi_div_eight, div_pow, Real.sq_sqrt hs2]
    norm_num
  rw [h1]
  have h2 : Irrational (2 - Real.sqrt 2) := by
    have h := irrational_sqrt_two.rat_sub (q := 2)
    simpa using h
  have h3 := h2.div_rat (q := 4) (by norm_num)
  simpa using h3

theorem irrational_ne_round7 {x : ℝ} (hx : Irrational x) : x ≠ round7 x := by
  intro heq
  have hcast : ((((round (x * 10 ^ 7) : ℤ) : ℚ) / 10 ^ 7 : ℚ) : ℝ) = round7 x := by
    rw [round7]
    push_cast
    ring
  exact hx.ne_rat (((round (x * 10 ^ 7) : ℤ) : ℚ) / 10 ^ 7)
    (heq.trans hcast.symm)

/-- **C3 counterexample**: in the bitstring-count branch the amplitude key is
the *unrounded* `sin²(y·π/M)` of the *unfolded* `y`.  With `m = 3` and a
single count at the state whose evaluation bits give `y = 1`, the produced
key is `sin²(π/8)`, which is irrational, whereas the claim's
`round(sin²(fold(y)·π/M), 7)` is rational — so they differ. -/
theorem C3_counterexample :
    ((qasmAggregate 3 [([true, false, false], 5)]).2).map (fun e => e.1)
        = [Real.sin (Real.pi / 8) ^ 2]
    ∧ Real.sin (Real.pi / 8) ^ 2
        ≠ round7 (Real.sin
            ((foldIndex (2 ^ 3) (yOfState 3 [true, false, false]) : ℕ)
              * Real.pi / 2 ^ 3) ^ 2) := by
  have hy : yOfState 3 [true, false, false] = 1 := by decide
  have hfold : foldIndex (2 ^ 3) (yOfState 3 [true, false, false]) = 1 := by
    decide
  have h8 : ((1 : ℕ) : ℝ) * Real.pi / 2 ^ 3 = Real.pi / 8 := by
    push_cast
    ring
  constructor
  · rw [qasm_snd]
    simp only [accumBy, List.foldl_cons, List.foldl_nil, upsert,
      List.map_cons, List.map_nil, hy]
    rw [h8]
  · rw [hfold, h8]
    exact irrational_ne_round7 sin_sq_pi_div_eight_irrational

/-- **C3 (amended)**: in the statevector path each amplitude key is
`round(sin²(fold(y)·π/M), 7)` for a grid key `y` of the grid distribution,
and mass merges by summation over the grid entries mapping to the same key;
in the bitstring-count path the key is the unrounded `sin²(y·π/M)` of the
unfolded `y`, again merging by summation. -/
theorem C3_amended_amplitude_keys :
    (∀ (m : ℕ) (probabilities : List ℝ) (e : ℝ × ℝ),
        e ∈ (evaluateStatevectorResults m probabilities).1 →
          ∃ y p, (y, p) ∈ (evaluateStatevectorResults m probabilities).2
            ∧ e.1 = round7 (Real.sin ((foldIndex (2 ^ m) y : ℕ) * Real.pi
                / 2 ^ m) ^ 2))
    ∧ (∀ (m : ℕ) (probabilities : List ℝ) (a : ℝ),
        getVal (evaluateStatevectorResults m probabilities).1 a
          = (((evaluateStatevectorResults m probabilities).2.filter
              (fun yp => decide (aKeySV m yp.1 = a))).map
            (fun yp => yp.2)).sum)
    ∧ (∀ (m : ℕ) (counts : List (List Bool × ℕ)) (e : ℝ × ℝ),
        e ∈ (qasmAggregate m counts).2 →
          ∃ s c, (s, c) ∈ counts
            ∧ e.1 = Real.sin ((yOfState m s : ℕ) * Real.pi / 2 ^ m) ^ 2)
    ∧ (∀ (m : ℕ) (counts : List (List Bool × ℕ)) (a : ℝ),
        getVal (qasmAggregate m counts).2 a
          = ((counts.filter (fun sc =>
                decide (Real.sin ((yOfState m sc.1 : ℕ) * Real.pi / 2 ^ m) ^ 2
                  = a))).map
              (fun sc => (sc.2 : ℝ)
                / (((counts.map (fun x => x.2)).sum : ℕ) : ℝ))).sum) := by
  refine ⟨?_, ?_, ?_, ?_⟩
  · intro m probabilities e he
    rw [evalSV_fst] at he
    obtain ⟨yp, hyp, hk⟩ := mem_accumBy _ _ _ _ he
    exact ⟨yp.1, yp.2, hyp, hk⟩
  · intro m probabilities a
    rw [evalSV_fst]
    exact getVal_accumBy _ _ _ _
  · intro m counts e he
    rw [qasm_snd] at he
    obtain ⟨sc, hsc, hk⟩ := mem_accumBy _ _ _ _ he
    exact ⟨sc.1, sc.2, hsc, hk⟩
  · intro m counts a
    rw [qasm_snd]
    exact getVal_accumBy _ _ _ _

/-- **C3 witness**: the statevector part of the amended statement applied at
a concrete aggregated entry (`m = 1`, all mass at joint index `0`). -/
theorem C3_amended_amplitude_keys_witness :
    ((aKeySV 1 0, (1 : ℝ)) ∈ (evaluateStatevectorResults 1 [1]).1)
    ∧ ∃ y p, (y, p) ∈ (evaluateStatevectorResults 1 [1]).2
        ∧ (aKeySV 1 0, (1 : ℝ)).1
            = round7 (Real.sin ((foldIndex (2 ^ 1) y : ℕ) * Real.pi
                / 2 ^ 1) ^ 2) := by
  have hb : bitRev 1 0 = 0 := by decide
  have hmem : (aKeySV 1 0, (1 : ℝ)) ∈ (evaluateStatevectorResults 1 [1]).1 := by
    rw [evalSV_fst, evalSV_snd]
    simp [accumBy, enumFrom, upsert, hb]
  exact ⟨hmem, C3_amended_amplitude_keys.1 1 [1] _ hmem⟩

/-! ### The evaluation grid -/

theorem aGrid_length : aGrid.length = 10000 := by
  simp [aGrid]

theorem mem_aGrid (theta : ℝ) :
    theta ∈ aGrid ↔ ∃ i : ℕ, i < 10000 ∧ theta = (i : ℝ) / 9999 := by
  constructor
  · intro h
    obtain ⟨i, hi, hθ⟩ := List.mem_map.mp h
    exact ⟨i, List.mem_range.mp hi, hθ.symm⟩
  · rintro ⟨i, hi, rfl⟩
    exact List.mem_map.mpr ⟨i, List.mem_range.mpr hi, rfl⟩

theorem mem_lrAdmitted (pdf : ℝ → ℝ → ℕ → ℝ) (shots : ℕ) (ai pi : List ℝ)
    (mle alpha : ℝ) (m : ℕ) (theta : ℝ) :
    theta ∈ lrAdmitted pdf shots ai pi mle alpha m
      ↔ theta ∈ aGrid
        ∧ loglik pdf mle m ai pi shots - chi2_quantile alpha / 2
            ≤ loglik pdf theta m ai pi shots := by
  simp [lrAdmitted, List.mem_filter]

/-- **C5**: The `likelihood_ratio` method evaluates the log-likelihood on the
uniform 10000-point grid `{i/9999 : i < 10000}` over `[0,1]`, takes the
threshold `loglik(mle) - chi2_quantile(alpha)/2`, and returns the minimum
and maximum of the grid points whose log-likelihood is at or above the
threshold (provided at least one grid point is admitted). -/
theorem C5_likelihood_ratio_grid (pdf : ℝ → ℝ → ℕ → ℝ)
    (fisher_information : ℝ → ℕ → ℝ) (d_logprob : ℝ → ℝ → ℕ → ℝ)
    (is_statevector : Bool) (m : ℕ) (ret : Ret) (mv alpha : ℝ)
    (h : ∃ i : ℕ, i < 10000
        ∧ loglik pdf mv m ret.values ret.probabilities
              (shotsOf is_statevector ret) - chi2_quantile alpha / 2
          ≤ loglik pdf ((i : ℝ) / 9999) m ret.values ret.probabilities
              (shotsOf is_statevector ret)) :
    aGrid.length = 10000
    ∧ (∀ theta : ℝ, theta ∈ aGrid ↔ ∃ i : ℕ, i < 10000 ∧ theta = (i : ℝ) / 9999)
    ∧ (∀ theta : ℝ,
        theta ∈ lrAdmitted pdf (shotsOf is_statevector ret) ret.values
            ret.probabilities mv alpha m
          ↔ theta ∈ aGrid
            ∧ loglik pdf mv m ret.values ret.probabilities
                  (shotsOf is_statevector ret) - chi2_quantile alpha / 2
              ≤ loglik pdf theta m ret.values ret.probabilities
                  (shotsOf is_statevector ret))
    ∧ ∃ lo hi,
        (ciRun pdf fisher_information d_logprob is_statevector m
            { ret with mle_value := some mv } alpha "likelihood_ratio").1
          = .ok (lo, hi)
        ∧ lo ∈ lrAdmitted pdf (shotsOf is_statevector ret) ret.values
            ret.probabilities mv alpha m
        ∧ hi ∈ lrAdmitted pdf (shotsOf is_statevector ret) ret.values
            ret.probabilities mv alpha m
        ∧ ∀ theta ∈ lrAdmitted pdf (shotsOf is_statevector ret) ret.values
            ret.probabilities mv alpha m, lo ≤ theta ∧ theta ≤ hi := by
  refine ⟨aGrid_length, mem_aGrid, mem_lrAdmitted _ _ _ _ _ _ _, ?_⟩
  obtain ⟨i, hi, hle⟩ := h
  have hθ0 : ((i : ℝ) / 9999) ∈ lrAdmitted pdf (shotsOf is_statevector ret)
      ret.values ret.probabilities mv alpha m :=
    (mem_lrAdmitted _ _ _ _ _ _ _ _).mpr ⟨mem_aGrid _ |>.mpr ⟨i, hi, rfl⟩, hle⟩
  rcases hl : lrAdmitted pdf (shotsOf is_statevector ret) ret.values
      ret.probabilities mv alpha m with _ | ⟨x, xs⟩
  · rw [hl] at hθ0
    simp at hθ0
  · refine ⟨xs.foldl min x, xs.foldl max x, ?_, ?_, ?_, ?_⟩
    · rw [ciRun_fst, ciResult_some, if_neg (by decide), if_neg (by decide),
        if_pos rfl, ciLR_eq, hl]
      rfl
    · exact foldl_min_mem xs x
    · exact foldl_max_mem xs x
    · intro theta htheta
      rcases List.mem_cons.mp htheta with rfl | hmem
      · exact ⟨foldl_min_le_init xs theta, foldl_max_init_le xs theta⟩
      · exact ⟨foldl_min_le_mem xs x theta hmem, foldl_max_mem_le xs x theta hmem⟩

/-- **C5 witness**: the theorem applied to the flat likelihood model
`pdf ≡ 1` on the `simpleRet` data, where every grid point is admitted. -/
theorem C5_likelihood_ratio_grid_witness :
    (∃ i : ℕ, i < 10000
        ∧ loglik (fun _ _ _ => 1) (1 / 2) 3 simpleRet.values
              simpleRet.probabilities (shotsOf true simpleRet)
            - chi2_quantile (1 / 2) / 2
          ≤ loglik (fun _ _ _ => 1) ((i : ℝ) / 9999) 3 simpleRet.values
              simpleRet.probabilities (shotsOf true simpleRet))
    ∧ (aGrid.length = 10000
      ∧ (∀ theta : ℝ, theta ∈ aGrid
          ↔ ∃ i : ℕ, i < 10000 ∧ theta = (i : ℝ) / 9999)
      ∧ (∀ theta : ℝ,
          theta ∈ lrAdmitted (fun _ _ _ => 1) (shotsOf true simpleRet)
              simpleRet.values simpleRet.probabilities (1 / 2) (1 / 2) 3
            ↔ theta ∈ aGrid
              ∧ loglik (fun _ _ _ => 1) (1 / 2) 3 simpleRet.values
                    simpleRet.probabilities (shotsOf true simpleRet)
                  - chi2_quantile (1 / 2) / 2
                ≤ loglik (fun _ _ _ => 1) theta 3 simpleRet.values
                    simpleRet.probabilities (shotsOf true simpleRet))
      ∧ ∃ lo hi,
          (ciRun (fun _ _ _ => 1) (fun _ _ => 1) (fun _ _ _ => 1) true 3
              { simpleRet with mle_value := some (1 / 2) } (1 / 2)
              "likelihood_ratio").1
            = .ok (lo, hi)
          ∧ lo ∈ lrAdmitted (fun _ _ _ => 1) (shotsOf true simpleRet)
              simpleRet.values simpleRet.probabilities (1 / 2) (1 / 2) 3
          ∧ hi ∈ lrAdmitted (fun _ _ _ => 1) (shotsOf true simpleRet)
              simpleRet.values simpleRet.probabilities (1 / 2) (1 / 2) 3
          ∧ ∀ theta ∈ lrAdmitted (fun _ _ _ => 1) (shotsOf true simpleRet)
              simpleRet.values simpleRet.probabilities (1 / 2) (1 / 2) 3,
              lo ≤ theta ∧ theta ≤ hi) := by
  have hll : ∀ theta : ℝ,
      loglik (fun _ _ _ => 1) theta 3 simpleRet.values simpleRet.probabilities
        (shotsOf true simpleRet) = 0 := by
    intro theta
    simp [loglik, simpleRet, emptyRet]
  have hq : 0 ≤ chi2_quantile (1 / 2) := chi2_quantile_nonneg (by norm_num)
  have h : ∃ i : ℕ, i < 10000
      ∧ loglik (fun _ _ _ => 1) (1 / 2) 3 simpleRet.values
            simpleRet.probabilities (shotsOf true simpleRet)
          - chi2_quantile (1 / 2) / 2
        ≤ loglik (fun _ _ _ => 1) ((i : ℝ) / 9999) 3 simpleRet.values
            simpleRet.probabilities (shotsOf true simpleRet) := by
    refine ⟨0, by norm_num, ?_⟩
    rw [hll, hll]
    linarith
  exact ⟨h, C5_likelihood_ratio_grid (fun _ _ _ => 1) (fun _ _ => 1)
    (fun _ _ _ => 1) true 3 simpleRet (1 / 2) (1 / 2) h⟩

/-! ### The sharply peaked likelihood scenario -/

theorem lrSharpK_nonneg : 0 ≤ lrSharpK := by
  have hq : 0 ≤ chi2_quantile (1 / 2) := chi2_quantile_nonneg (by norm_num)
  unfold lrSharpK
  nlinarith

theorem loglik_pdfSharp (theta : ℝ) :
    loglik pdfSharp theta 3 [1 / 2] [1] 1 = -(lrSharpK * |theta - 1 / 2|) := by
  simp [loglik, pdfSharp, Real.log_exp]

/-- The stored estimate `1/2` really is a global maximum point of the
modelled log-likelihood: the scenario is a legitimate "computed MLE". -/
theorem pdfSharp_mle_maximal (theta : ℝ) :
    loglik pdfSharp theta 3 [1 / 2] [1] 1
      ≤ loglik pdfSharp (1 / 2) 3 [1 / 2] [1] 1 := by
  rw [loglik_pdfSharp, loglik_pdfSharp]
  have h1 : |((1 : ℝ) / 2 - 1 / 2)| = 0 := by norm_num
  rw [h1]
  have h2 : 0 ≤ lrSharpK * |theta - 1 / 2| :=
    mul_nonneg lrSharpK_nonneg (abs_nonneg _)
  linarith

/-- Every grid point is at distance at least `1/19998` from `1/2` (the grid
has even resolution `9999` so no point hits the midpoint). -/
theorem grid_dist_half (i : ℕ) :
    (1 : ℝ) / 19998 ≤ |(i : ℝ) / 9999 - 1 / 2| := by
  have hz : (2 * (i : ℤ) - 9999) ≠ 0 := by omega
  have h1 : ((i : ℝ) / 9999 - 1 / 2) = ((2 * (i : ℤ) - 9999 : ℤ) : ℝ) / 19998 := by
    push_cast
    ring
  have h2 : (1 : ℝ) ≤ |((2 * (i : ℤ) - 9999 : ℤ) : ℝ)| := by
    rw [← Int.cast_abs]
    exact_mod_cast Int.one_le_abs hz
  rw [h1, abs_div, abs_of_pos (show (0 : ℝ) < 19998 by norm_num)]
  exact (div_le_div_iff_of_pos_right (by norm_num)).mpr h2

/-- Under the sharply peaked likelihood, no grid point reaches the
likelihood-ratio threshold: the admitted selection is empty. -/
theorem lrSharp_admitted_empty :
    lrAdmitted pdfSharp 1 [1 / 2] [1] (1 / 2) (1 / 2) 3 = [] := by
  have hq : 0 ≤ chi2_quantile (1 / 2) := chi2_quantile_nonneg (by norm_num)
  apply List.filter_eq_nil_iff.mpr
  intro theta htheta
  obtain ⟨i, hi, rfl⟩ := (mem_aGrid theta).mp htheta
  simp only [decide_eq_true_eq]
  rw [loglik_pdfSharp, loglik_pdfSharp]
  push_neg
  have habs := grid_dist_half i
  have h1 : lrSharpK * (1 / 19998) ≤ lrSharpK * |(i : ℝ) / 9999 - 1 / 2| :=
    mul_le_mul_of_nonneg_left habs lrSharpK_nonneg
  have h2 : lrSharpK * (1 / 19998) = chi2_quantile (1 / 2) + 1 := by
    unfold lrSharpK
    ring
  have h3 : |((1 : ℝ) / 2 - 1 / 2)| = 0 := by norm_num
  rw [h3]
  nlinarith

/-- **C4 counterexample**: for the likelihood-ratio method the claim fails.
With the admissible `alpha = 1/2`, statevector mode, the §8 scenario data
(`m = 3`, MLE `1/2`, a grid amplitude), and a sharply peaked likelihood
model (the spec does not fix the closed form of the external `pdf_a`; this
shape arises for large shot counts), no point of the 10000-point grid
clears the threshold, so `ci` hits `np.min` of an empty selection and
raises instead of returning an interval containing the MLE. -/
theorem C4_counterexample :
    0 < (1 : ℝ) / 2 ∧ (1 : ℝ) / 2 < 1
    ∧ (ciRun pdfSharp (fun _ _ => 1) (fun _ _ _ => 1) true 3
        { simpleRet with mle_value := some (1 / 2) } (1 / 2)
        "likelihood_ratio").1 = .error emptyReductionMsg := by
  refine ⟨by norm_num, by norm_num, ?_⟩
  rw [ciRun_fst, ciResult_some, if_neg (by decide), if_neg (by decide),
    if_pos rfl, ciLR_eq,
    show shotsOf true simpleRet = 1 from rfl,
    show simpleRet.values = [1 / 2] from rfl,
    show simpleRet.probabilities = [1] from rfl,
    lrSharp_admitted_empty]
  rfl

/-- **C4 (amended)**: for every `alpha ∈ (0,1)` the `fisher` and
`observed_fisher` methods always return an interval `(lo, hi)` with
`lo ≤ mle ≤ hi`; the `likelihood_ratio` method returns the minimum and
maximum admitted grid points, which need not bracket the MLE — with a
sharply peaked likelihood the admitted selection can even be empty, in
which case the method fails instead of returning an interval. -/
theorem C4_amended_interval_contains_mle (pdf : ℝ → ℝ → ℕ → ℝ)
    (fisher_information : ℝ → ℕ → ℝ) (d_logprob : ℝ → ℝ → ℕ → ℝ)
    (is_statevector : Bool) (m : ℕ) (ret : Ret) (mv alpha : ℝ)
    (_h0 : 0 < alpha) (h1 : alpha < 1) :
    (∃ lo hi,
      (ciRun pdf fisher_information d_logprob is_statevector m
          { ret with mle_value := some mv } alpha "fisher").1 = .ok (lo, hi)
      ∧ lo ≤ mv ∧ mv ≤ hi)
    ∧ (∃ lo hi,
      (ciRun pdf fisher_information d_logprob is_statevector m
          { ret with mle_value := some mv } alpha "observed_fisher").1
        = .ok (lo, hi)
      ∧ lo ≤ mv ∧ mv ≤ hi) := by
  have hq : 0 ≤ normal_quantile alpha := normal_quantile_nonneg h1
  constructor
  · refine ⟨mv - normal_quantile alpha
        / Real.sqrt ((shotsOf is_statevector ret : ℝ) * fisher_information mv m),
      mv + normal_quantile alpha
        / Real.sqrt ((shotsOf is_statevector ret : ℝ) * fisher_information mv m),
      rfl, ?_, ?_⟩
    · have hd : 0 ≤ normal_quantile alpha
          / Real.sqrt ((shotsOf is_statevector ret : ℝ) * fisher_information mv m) :=
        div_nonneg hq (Real.sqrt_nonneg _)
      linarith
    · have hd : 0 ≤ normal_quantile alpha
          / Real.sqrt ((shotsOf is_statevector ret : ℝ) * fisher_information mv m) :=
        div_nonneg hq (Real.sqrt_nonneg _)
      linarith
  · refine ⟨mv - normal_quantile alpha
        / Real.sqrt (((ret.values.zip ret.probabilities).map
            (fun x => (shotsOf is_statevector ret : ℝ) * x.2
              * d_logprob x.1 mv m ^ 2)).sum),
      mv + normal_quantile alpha
        / Real.sqrt (((ret.values.zip ret.probabilities).map
            (fun x => (shotsOf is_statevector ret : ℝ) * x.2
              * d_logprob x.1 mv m ^ 2)).sum),
      rfl, ?_, ?_⟩
    · have hd : 0 ≤ normal_quantile alpha
          / Real.sqrt (((ret.values.zip ret.probabilities).map
              (fun x => (shotsOf is_statevector ret : ℝ) * x.2
                * d_logprob x.1 mv m ^ 2)).sum) :=
        div_nonneg hq (Real.sqrt_nonneg _)
      linarith
    · have hd : 0 ≤ normal_quantile alpha
          / Real.sqrt (((ret.values.zip ret.probabilities).map
              (fun x => (shotsOf is_statevector ret : ℝ) * x.2
                * d_logprob x.1 mv m ^ 2)).sum) :=
        div_nonneg hq (Real.sqrt_nonneg _)
      linarith

/-- **C4 witness**: the amended statement at a concrete admissible
configuration. -/
theorem C4_amended_interval_contains_mle_witness :
    (0 < (1 : ℝ) / 2 ∧ (1 : ℝ) / 2 < 1)
    ∧ ((∃ lo hi,
        (ciRun (fun _ _ _ => 1) (fun _ _ => 1) (fun _ _ _ => 1) true 3
            { emptyRet with mle_value := some (1 / 2) } (1 / 2) "fisher").1
          = .ok (lo, hi)
        ∧ lo ≤ 1 / 2 ∧ 1 / 2 ≤ hi)
      ∧ (∃ lo hi,
        (ciRun (fun _ _ _ => 1) (fun _ _ => 1) (fun _ _ _ => 1) true 3
            { emptyRet with mle_value := some (1 / 2) } (1 / 2)
            "observed_fisher").1
          = .ok (lo, hi)
        ∧ lo ≤ 1 / 2 ∧ 1 / 2 ≤ hi)) :=
  ⟨⟨by norm_num, by norm_num⟩,
    C4_amended_interval_contains_mle (fun _ _ _ => 1) (fun _ _ => 1)
      (fun _ _ _ => 1) true 3 emptyRet (1 / 2) (1 / 2) (by norm_num)
      (by norm_num)⟩

/-! ### The seeding bug of `mle` -/

theorem loglik_const_one (theta : ℝ) (m : ℕ) (ai pi : List ℝ) (shots : ℕ) :
    loglik (fun _ _ _ => 1) theta m ai pi shots = 0 := by
  simp only [loglik, Real.log_one, mul_zero]
  induction ai.zip pi with
  | nil => rfl
  | cons x xs ih => simp [ih]

/-- **C1 evidence**: `mle()` seeds the global candidate with
`self._ret['estimation']` (line 269), which holds the *domain-mapped* most
likely value `value_to_estimation(a*)` — not the amplitude `a* ∈ [0,1]`.
With the non-identity mapping `a ↦ a + 2` and all mass at the amplitude
`1/2`, the stored seed is `5/2`; under a flat likelihood the bisection never
improves on it, so `mle_value` ends up `5/2 ∉ [0,1]` (and line 302 then maps
it a second time), while the most probable amplitude was `1/2 ≠ 5/2`. -/
theorem C1_mle_seeded_with_mapped_value :
    ∃ r : Ret,
      mleRun (fun _ _ _ => 1) (fun f a _ => (a, f a)) (fun a => a + 2) true 1
          (buildRet (fun a => a + 2) [] [(1 / 2, 1)] [(1, 1)]) = some r
      ∧ r.mle_value = some (5 / 2)
      ∧ ¬((5 : ℝ) / 2 ≤ 1)
      ∧ (mostLikely (buildRet (fun a => a + 2) [] [(1 / 2, 1)]
          [(1, 1)]).a_items).1 = some (1 / 2)
      ∧ r.mle = some ((5 : ℝ) / 2 + 2)
      ∧ (5 : ℝ) / 2 ≠ 1 / 2 := by
  have hsort_a : sortItems [((1 : ℝ) / 2, (1 : ℝ))] = [(1 / 2, 1)] := by
    simp [sortItems, List.insertionSort, List.orderedInsert]
  have hsort_y : sortItems [((1 : ℕ), (1 : ℝ))] = [(1, 1)] := by
    simp [sortItems, List.insertionSort, List.orderedInsert]
  have hbuild : buildRet (fun a => a + 2) [] [(1 / 2, 1)] [(1, 1)]
      = { counts := []
          a_items := [(1 / 2, 1)]
          y_items := [(1, 1)]
          mapped_values := [5 / 2]
          values := [1 / 2]
          y_values := [1]
          probabilities := [1]
          mapped_items := [(5 / 2, 1)]
          estimation := some (5 / 2)
          max_probability := 1
          mle := none
          mle_value := none } := by
    rw [buildRet, hsort_a, hsort_y]
    simp [mostLikely]
    norm_num
  have hrun : mleRun (fun _ _ _ => 1) (fun f a _ => (a, f a)) (fun a => a + 2)
      true 1 (buildRet (fun a => a + 2) [] [(1 / 2, 1)] [(1, 1)])
      = some { counts := [], a_items := [(1 / 2, 1)], y_items := [(1, 1)],
               mapped_values := [5 / 2], values := [1 / 2], y_values := [1],
               probabilities := [1], mapped_items := [(5 / 2, 1)],
               estimation := some (5 / 2), max_probability := 1,
               mle := some (5 / 2 + 2), mle_value := some (5 / 2) } := by
    rw [hbuild, mleRun]
    have hzip : (drops 1).zip (drops 1).tail
        = [(Real.sin (Real.pi * ((0 : ℕ) * (0.5 / (2 ^ 1 / 2 : ℕ)))) ^ 2, 1)] := by
      simp [drops, List.range_succ]
    simp [hzip, shotsOf, loglik_const_one]
  refine ⟨_, hrun, rfl, by norm_num, ?_, rfl, by norm_num⟩
  rw [hbuild]
  simp [mostLikely]
